import Mathlib

/-!
Verification model of the lemon WASM runtime's capability-enforcement and
sandbox-execution engine (`native/lemon-wasm-runtime/src/capabilities.rs` and
`native/lemon-wasm-runtime/src/runtime.rs`).

Rust strings are modelled as lists of characters; Rust byte strings (log
message lengths are measured in bytes) as lists of naturals.  Wall-clock
timestamps, the external secret resolver and the WASM guest itself are I/O and
are passed in as explicit parameters.
-/

namespace Lemon

abbrev Str := List Char

/-- The character list of a string literal. -/
def strL (s : String) : Str := s.data

/-- Rust `u8::to_ascii_lowercase` on one character. -/
def asciiLower (c : Char) : Char :=
  if 'A' ≤ c ∧ c ≤ 'Z' then Char.ofNat (c.toNat + 32) else c

/-- `s.to_ascii_lowercase()`.  Rust `eq_ignore_ascii_case a b` is
`lowerStr a = lowerStr b`. -/
def lowerStr (s : Str) : Str := s.map asciiLower

/-! ### Capability policy data model (`capabilities.rs`)

Only the fields consulted by the functions modelled below are carried;
`secrets`, `auth`, credential mappings and the http endpoint patterns feed
code (URL parsing, credential injection) that stays abstract here. -/

structure RateLimitSchema where
  requests_per_minute : Nat
  requests_per_hour : Nat
deriving DecidableEq

structure HttpCapabilitySchema where
  rate_limit : Option RateLimitSchema
deriving DecidableEq

structure ToolInvokeCapabilitySchema where
  aliases : List (Str × Str)
  rate_limit : Option RateLimitSchema
deriving DecidableEq

structure WorkspaceCapabilitySchema where
  allowed_prefixes : List Str
deriving DecidableEq

structure ExecAllowlistEntry where
  program : Str
  allowed_subcommands : List Str
  blocked_flags : List Str
deriving DecidableEq

structure ExecCapabilitySchema where
  allowlist : List ExecAllowlistEntry
  rate_limit : Option RateLimitSchema
deriving DecidableEq

structure CapabilitiesFile where
  http : Option HttpCapabilitySchema := none
  tool_invoke : Option ToolInvokeCapabilitySchema := none
  workspace : Option WorkspaceCapabilitySchema := none
  exec : Option ExecCapabilitySchema := none
deriving DecidableEq

/-- Rust `pattern.strip_prefix("*.")`: the suffix when the pattern begins with
the two characters `*.`, else `none`. -/
def strip_wildcard : Str → Option Str
  | c1 :: c2 :: suf => if c1 = '*' ∧ c2 = '.' then some suf else none
  | _ => none

/-- `host_matches_pattern` (capabilities.rs:382).  Exact ASCII-case-insensitive
equality, else a `*.suffix` wildcard pattern matches when the lowercased host
ends with `"." ++ suffix` unless the host equals the bare suffix. -/
def host_matches_pattern (host pattern : Str) : Bool :=
  if lowerStr host = lowerStr pattern then true
  else
    match strip_wildcard pattern with
    | some suf =>
      if lowerStr host = lowerStr suf then false
      else decide (('.' :: lowerStr suf) <:+ lowerStr host)
    | none => false

/-- The unconditional rejections at the top of `workspace_read_allowed`
(capabilities.rs:57): empty path, leading `/`, a `..` substring, or a NUL. -/
def invalid_workspace_path (path : Str) : Prop :=
  path = [] ∨ path.head? = some '/' ∨ strL ".." <:+: path ∨ Char.ofNat 0 ∈ path

instance (path : Str) : Decidable (invalid_workspace_path path) := by
  unfold invalid_workspace_path; infer_instance

/-- `CapabilitiesFile::workspace_read_allowed` (capabilities.rs:56). -/
def workspace_read_allowed (caps : CapabilitiesFile) (path : Str) : Bool :=
  if invalid_workspace_path path then false
  else
    match caps.workspace with
    | some w =>
      if w.allowed_prefixes = [] then true
      else w.allowed_prefixes.any fun p => decide (p <+: path)
    | none => false

/-- The tail of `CapabilitiesFile::exec_allowed` (capabilities.rs:159-177):
the subcommand and blocked-flag checks against one allowlist entry. -/
def exec_entry_decision (program : Str) (args : List Str)
    (entry : ExecAllowlistEntry) : Except Str Unit :=
  if entry.allowed_subcommands ≠ [] ∧ args.head?.getD [] ∉ entry.allowed_subcommands then
    .error (strL "subcommand \x27" ++ args.head?.getD [] ++
      strL "\x27 not allowed for program \x27" ++ program ++ strL "\x27")
  else
    match args.find? (fun arg => decide (arg ∈ entry.blocked_flags)) with
    | some arg =>
      .error (strL "blocked flag \x27" ++ arg ++
        strL "\x27 for program \x27" ++ program ++ strL "\x27")
    | none => .ok ()

/-- `CapabilitiesFile::exec_allowed` (capabilities.rs:145). -/
def exec_allowed (caps : CapabilitiesFile) (program : Str) (args : List Str) :
    Except Str Unit :=
  match caps.exec with
  | none => .error (strL "exec capability not granted")
  | some ex =>
    match ex.allowlist.find? (fun entry => decide (entry.program = program)) with
    | none => .error (strL "program \x27" ++ program ++ strL "\x27 not in exec allowlist")
    | some entry => exec_entry_decision program args entry

/-- `CapabilitiesFile::http_limit` (capabilities.rs:91): the section's
positive `requests_per_minute`, else 50. -/
def http_limit (caps : CapabilitiesFile) : Nat :=
  match caps.http with
  | some http =>
    match http.rate_limit with
    | some rate => if rate.requests_per_minute > 0 then rate.requests_per_minute else 50
    | none => 50
  | none => 50

/-- `CapabilitiesFile::tool_invoke_limit` (capabilities.rs:82): default 20. -/
def tool_invoke_limit (caps : CapabilitiesFile) : Nat :=
  match caps.tool_invoke with
  | some cap =>
    match cap.rate_limit with
    | some rate => if rate.requests_per_minute > 0 then rate.requests_per_minute else 20
    | none => 20
  | none => 20

/-- `CapabilitiesFile::resolve_tool_alias` (capabilities.rs:76); the alias
`HashMap` is modelled as an association list. -/
def resolve_tool_alias (caps : CapabilitiesFile) (aliasName : Str) : Option Str :=
  caps.tool_invoke.bind fun cap =>
    (cap.aliases.find? fun p => decide (p.1 = aliasName)).map fun p => p.2

/-! ### http_request gating (runtime.rs:859-877)

The allowlist decision `http_allowed` parses the URL through the `url` crate,
which stays abstract: its outcome is the `allowlisted` argument.  The rest of
`http_request` performs network I/O and is out of scope. -/

/-- `http_request_count` is a `u32` (runtime.rs:608); `+= 1` wraps modulo
2^32 on overflow in a release build (a checked build panics instead). -/
def U32_MOD : Nat := 4294967296

/-- The gating prefix of `http_request`: allowlist check, counter increment
(wrapping `u32` arithmetic), rate-limit check.  Returns the new counter and
the error, if any. -/
def http_request_gate (caps : CapabilitiesFile) (allowlisted : Bool)
    (method url : Str) (count : Nat) : Nat × Option Str :=
  if !allowlisted then
    (count, some (strL "http request blocked by allowlist: " ++ method ++ strL " " ++ url))
  else
    let count' := (count + 1) % U32_MOD
    if count' > http_limit caps then
      (count', some (strL "http request rate limit exceeded"))
    else (count', none)

/-- The counter value after `n` allowlisted `http_request` calls. -/
def http_gate_count (caps : CapabilitiesFile) (method url : Str) : Nat → Nat
  | 0 => 0
  | n + 1 => (http_request_gate caps true method url (http_gate_count caps method url n)).1

/-! ### Log buffer (`StoreData::push_log`, runtime.rs:651-672) -/

def MAX_LOG_ENTRIES : Nat := 1000
def MAX_LOG_MESSAGE_BYTES : Nat := 4096

/-- The bytes of the `... (truncated)` marker appended to over-length
messages. -/
def truncationMarker : List Nat := (strL "... (truncated)").map Char.toNat

structure RuntimeLog where
  level : Str
  message : List Nat
  timestamp_millis : Nat
deriving DecidableEq

/-- Rust `str::is_char_boundary i`: true at 0, at the end of the string, and
at any byte that is not a UTF-8 continuation byte (i.e. below 0x80 or at
least 0xC0). -/
def utf8_boundary_at (message : List Nat) (i : Nat) : Prop :=
  i = 0 ∨ i = message.length ∨
    (i < message.length ∧ (message.getD i 0 < 128 ∨ 192 ≤ message.getD i 0))

instance (message : List Nat) (i : Nat) : Decidable (utf8_boundary_at message i) := by
  unfold utf8_boundary_at; infer_instance

/-- `StoreData::push_log`.  The wall-clock timestamp is passed in as `now`.
The truncation slice `&message[..MAX_LOG_MESSAGE_BYTES]` panics when byte
4096 is not a character boundary; that panic is modelled as `none` (no entry
is stored and the invocation aborts). -/
def push_log (logs : List RuntimeLog) (level : Str) (message : List Nat)
    (now : Nat) : Option (List RuntimeLog) :=
  if logs.length ≥ MAX_LOG_ENTRIES then some logs
  else
    if message.length > MAX_LOG_MESSAGE_BYTES then
      if utf8_boundary_at message MAX_LOG_MESSAGE_BYTES then
        some (logs ++ [⟨level, message.take MAX_LOG_MESSAGE_BYTES ++ truncationMarker, now⟩])
      else none
    else some (logs ++ [⟨level, message, now⟩])

/-- The log buffer after a sequence of `log` host calls, starting from the
fresh store's empty buffer; `none` once any call panics. -/
def push_log_fold (calls : List (Str × List Nat × Nat)) : Option (List RuntimeLog) :=
  calls.foldl (fun acc c => acc.bind fun logs => push_log logs c.1 c.2.1 c.2.2) (some [])

/-! ### Output sanitization (`sanitize_output`, runtime.rs:1138-1146) -/

def REDACTED_TOKEN : Str := strL "[REDACTED]"

/-- Rust `str::replace`: replace every non-overlapping occurrence of `pat`,
scanning left to right.  `fuel` bounds the recursion; `s.length` is always
enough since each step consumes at least one element of `s` when `pat` is
non-empty (`sanitize_output` never calls this with an empty pattern). -/
def replaceAllAux (pat repl : Str) : Nat → Str → Str
  | 0, s => s
  | fuel + 1, s =>
    if pat ≠ [] ∧ pat <+: s then repl ++ replaceAllAux pat repl fuel (s.drop pat.length)
    else
      match s with
      | [] => []
      | c :: rest => c :: replaceAllAux pat repl fuel rest

def replaceAll (pat repl s : Str) : Str := replaceAllAux pat repl s.length s

/-- `sanitize_output`: for each non-empty resolved secret, in list order,
replace its occurrences by `[REDACTED]`; empty secrets are skipped. -/
def sanitize_output (output : Str) (secrets : List Str) : Str :=
  secrets.foldl
    (fun result secret => if secret ≠ [] then replaceAll secret REDACTED_TOKEN result else result)
    output

/-- Join a list of pieces with a separator (used to describe the shape of
`replaceAll` results: the pieces of the input between matches, joined by the
replacement). -/
def joinWith (sep : Str) : List Str → Str
  | [] => []
  | [p] => p
  | p :: ps => p ++ sep ++ joinWith sep ps

/-! ### Secret placeholder engine (`resolve_secret_placeholders_with`,
runtime.rs:1103-1136) -/

def SECRET_OPEN : Str := strL "\x7b\x7bSECRET:"
def SECRET_CLOSE : Str := strL "\x7d\x7d"

/-- Rust `str::find` restricted to a pattern: index of the leftmost occurrence
of `pat`. -/
def firstOcc (pat : Str) : Str → Option Nat
  | [] => if pat <+: ([] : Str) then some 0 else none
  | c :: rest =>
    if pat <+: (c :: rest) then some 0
    else (firstOcc pat rest).map fun n => n + 1

/-- The scanning loop of `resolve_secret_placeholders_with`.  `fuel` bounds the
iteration count; every iteration that recurses removes an 11-plus-character
placeholder from the tail still to be scanned, so `input.length + 1` is always
enough fuel. -/
def resolveAux (resolve_fn : Str → Except Str Str) :
    Nat → Str → Nat → List Str → Except Str (Str × List Str)
  | 0, result, _, secrets => .ok (result, secrets)
  | fuel + 1, result, search_from, secrets =>
    match firstOcc SECRET_OPEN (result.drop search_from) with
    | none => .ok (result, secrets)
    | some start =>
      let abs_start := search_from + start
      let after := abs_start + SECRET_OPEN.length
      match firstOcc SECRET_CLOSE (result.drop after) with
      | none => .ok (result, secrets)
      | some stop =>
        let abs_end := after + stop
        let name := (result.drop after).take stop
        match resolve_fn name with
        | .error e => .error e
        | .ok value =>
          resolveAux resolve_fn fuel
            (result.take abs_start ++ value ++ result.drop (abs_end + SECRET_CLOSE.length))
            (abs_start + value.length)
            (secrets ++ [value])

/-- `resolve_secret_placeholders_with`: returns the substituted string and the
extended resolved-secrets list, or the resolver's error. -/
def resolve_secret_placeholders_with (input : Str) (resolved_secrets : List Str)
    (resolve_fn : Str → Except Str Str) : Except Str (Str × List Str) :=
  resolveAux resolve_fn (input.length + 1) input 0 resolved_secrets

/-- `input` contains a complete `{{SECRET:...}}` placeholder: an opener with a
closing `}}` somewhere after it.  (The bounds make the predicate decidable; an
opener or closer can only sit at an index below `input.length`.) -/
def HasPlaceholder (input : Str) : Prop :=
  ∃ i < input.length, SECRET_OPEN <+: input.drop i ∧
    ∃ k < input.length, SECRET_CLOSE <+: input.drop (i + SECRET_OPEN.length + k)

instance (input : Str) : Decidable (HasPlaceholder input) := by
  unfold HasPlaceholder; infer_instance

/-! ### Nested tool invocation (`tool_invoke`, runtime.rs:975-1019, and
`invoke_tool_internal`, runtime.rs:459-545) -/

inductive RtError where
  | toolNotFound : Str → RtError
  | instantiation : Str → RtError
  | execution : Str → RtError
deriving DecidableEq

/-- `RuntimeError`'s `Display` strings (runtime.rs:40-48). -/
def rtErrString : RtError → Str
  | .toolNotFound name => strL "tool not found: " ++ name
  | .instantiation msg => strL "tool instantiation failed: " ++ msg
  | .execution msg => strL "tool execution failed: " ++ msg

/-- Decimal rendering of a counter, as Rust `format!` prints a `u32`. -/
def natStr (n : Nat) : Str := (Nat.repr n).data

/-- The `max tool invoke depth exceeded: {next} > {max}` message used both by
`tool_invoke` and by `invoke_tool_internal`. -/
def depth_err_msg (next maxd : Nat) : Str :=
  strL "max tool invoke depth exceeded: " ++ natStr next ++ strL " > " ++ natStr maxd

/-- The slice of `InvokeResult` and its `details` object that the claims
consume: the guest response, the invocation's depth and its reported
`tool_invoke_count`. -/
structure ChainResult where
  output : Option Str
  error : Option Str
  depth : Nat
  tool_invoke_count : Nat
deriving DecidableEq

/-- The `tool_invoke` host function (runtime.rs:975): alias resolution, counter
increment, rate check, depth check, then either a local recursive invocation
(`recurseLocal`, standing for `invoke_tool_internal` at `depth + 1`) or
delegation to the external resolver (`hostInvoke`). -/
def tool_invoke_model (caps : CapabilitiesFile) (hasTool : Str → Bool)
    (recurseLocal : Str → Nat → Except RtError ChainResult)
    (hostInvoke : Str → Str → Except Str Str)
    (count depth maxd : Nat) (aliasName params : Str) : Nat × Except Str Str :=
  match resolve_tool_alias caps aliasName with
  | none => (count, .error (strL "unknown tool alias: " ++ aliasName))
  | some target =>
    let count' := count + 1
    if count' > tool_invoke_limit caps then
      (count', .error (strL "tool invocation rate limit exceeded"))
    else
      let next := depth + 1
      if next > maxd then (count', .error (depth_err_msg next maxd))
      else if hasTool target then
        match recurseLocal target next with
        | .error e => (count', .error (rtErrString e))
        | .ok r =>
          match r.error with
          | some e => (count', .error e)
          | none => (count', .ok (r.output.getD (strL "null")))
      else (count', hostInvoke target params)

def CHAIN_TOOL : Str := strL "chain"
def CHAIN_ALIAS : Str := strL "next"

/-- Policy of the chain tool: one alias mapping to the tool itself, default
tool-invoke rate limit (20). -/
def chainCaps : CapabilitiesFile :=
  { tool_invoke := some { aliases := [(CHAIN_ALIAS, CHAIN_TOOL)], rate_limit := none } }

/-- A guest that surfaces its host-call result as its normal output: the value
on success, the error string tagged `ERR:` on failure.  It never reports a
guest error, so the surrounding invocation returns normally. -/
def guestEncode : Except Str Str → Str
  | .ok s => s
  | .error e => strL "ERR:" ++ e

/-- `invoke_tool_internal` for the self-invoking chain scenario of §8/F: a
single discovered tool whose guest calls `tool_invoke` on `CHAIN_ALIAS` once
and returns whatever it got.  Mirrors runtime.rs:459: the entry depth check,
then the guest execution with a fresh counter, then the `details` counters.
`fuel` bounds the nesting; any value above `maxd - depth` is enough. -/
def chainInvokeInternal (fuel depth maxd : Nat) : Except RtError ChainResult :=
  if depth > maxd then .error (.execution (depth_err_msg depth maxd))
  else
    match fuel with
    | 0 => .error (.execution (strL "model fuel exhausted"))
    | f + 1 =>
      let host := tool_invoke_model chainCaps (fun name => decide (name = CHAIN_TOOL))
        (fun _ next => chainInvokeInternal f next maxd)
        (fun t _ => .error (strL "host invoke unavailable for " ++ t))
        0 depth maxd CHAIN_ALIAS (strL "\x7b\x7d")
      .ok { output := some (guestEncode host.2), error := none,
            depth := depth, tool_invoke_count := host.1 }

/-! ### Per-invocation store configuration (`invoke_tool_internal`
runtime.rs:480-499, `StoreData::new` runtime.rs:616-649, `WasmResourceLimiter`
runtime.rs:562-598) -/

structure ToolLimits where
  memory_bytes : Nat
  fuel : Nat
  timeout_ms : Nat
  max_depth : Nat
deriving DecidableEq

structure RuntimeDefaults where
  default_memory_limit : Nat
  default_timeout_ms : Nat
  default_fuel_limit : Nat
  max_tool_invoke_depth : Nat
deriving DecidableEq

/-- `Runtime::prepare_tool` (runtime.rs:297-302) gives every discovered tool
the limits taken from the discovery request's defaults. -/
def prepared_limits (d : RuntimeDefaults) : ToolLimits :=
  { memory_bytes := d.default_memory_limit, fuel := d.default_fuel_limit,
    timeout_ms := d.default_timeout_ms, max_depth := d.max_tool_invoke_depth }

structure PreparedTool where
  name : Str
  limits : ToolLimits
deriving DecidableEq

/-- The tool map produced by one `discover` call: every tool carries
`prepared_limits` of the same defaults. -/
def discover_prepared (d : RuntimeDefaults) (stems : List Str) : List PreparedTool :=
  stems.map fun stem => { name := stem, limits := prepared_limits d }

/-- `EPOCH_TICK_INTERVAL` is 10 ms (runtime.rs:32). -/
def EPOCH_TICK_INTERVAL_MS : Nat := 10

structure StoreConfig where
  fuel : Nat
  epoch_deadline_ticks : Nat
  memory_limit : Nat
  max_instances : Nat
  max_tables : Nat
  max_memories : Nat
  table_growth_limit : Nat
deriving DecidableEq

/-- `StoreData::new` (runtime.rs:625-632) takes the memory bound from
`runtime.tools.values().next()` — an arbitrary element of the tool map, here
`chosen` — with a 10 MiB fallback for an empty map. -/
def store_memory_limit (chosen : Option PreparedTool) : Nat :=
  (chosen.map fun t => t.limits.memory_bytes).getD (10 * 1024 * 1024)

/-- The store configuration `invoke_tool_internal` applies for the invoked
`tool` (fuel, epoch deadline from its timeout, resource-limiter caps), with
`chosen` the arbitrary map element consulted by `StoreData::new`. -/
def configure_store (tool : PreparedTool) (chosen : Option PreparedTool) : StoreConfig :=
  { fuel := tool.limits.fuel,
    epoch_deadline_ticks := max (tool.limits.timeout_ms / EPOCH_TICK_INTERVAL_MS) 1,
    memory_limit := store_memory_limit chosen,
    max_instances := 16, max_tables := 16, max_memories := 16,
    table_growth_limit := 10000 }

/-! ## Helper lemmas -/

theorem exec_entry_decision_ok_iff (program : Str) (args : List Str)
    (entry : ExecAllowlistEntry) :
    exec_entry_decision program args entry = .ok () ↔
      (entry.allowed_subcommands = [] ∨ args.head?.getD [] ∈ entry.allowed_subcommands) ∧
      ∀ a ∈ args, a ∉ entry.blocked_flags := by
  unfold exec_entry_decision
  by_cases hsub : entry.allowed_subcommands ≠ [] ∧ args.head?.getD [] ∉ entry.allowed_subcommands
  · rw [if_pos hsub]
    constructor
    · intro hc; exact Except.noConfusion hc
    · rintro ⟨h1, -⟩
      rcases h1 with h1 | h1
      · exact absurd h1 hsub.1
      · exact absurd h1 hsub.2
  · rw [if_neg hsub]
    have hsub' : entry.allowed_subcommands = [] ∨ args.head?.getD [] ∈ entry.allowed_subcommands := by
      by_cases he : entry.allowed_subcommands = []
      · exact Or.inl he
      · right; by_contra hm; exact hsub ⟨he, hm⟩
    cases hfind : args.find? (fun a => decide (a ∈ entry.blocked_flags)) with
    | some arg =>
      have hmem : arg ∈ args := List.mem_of_find?_eq_some hfind
      have harg : arg ∈ entry.blocked_flags := by
        have := List.find?_some hfind; simpa using this
      constructor
      · intro hc; exact Except.noConfusion hc
      · rintro ⟨-, hall⟩; exact absurd harg (hall arg hmem)
    | none =>
      have hall : ∀ a ∈ args, a ∉ entry.blocked_flags := by
        intro a ha
        have := List.find?_eq_none.1 hfind a ha
        simpa using this
      simpa using ⟨hsub', hall⟩

theorem strip_wildcard_eq_some {pattern suf : Str} :
    strip_wildcard pattern = some suf ↔ pattern = '*' :: '.' :: suf := by
  cases pattern with
  | nil => simp [strip_wildcard]
  | cons c1 rest1 =>
    cases rest1 with
    | nil => simp [strip_wildcard]
    | cons c2 rest =>
      by_cases h : c1 = '*' ∧ c2 = '.'
      · obtain ⟨h1, h2⟩ := h
        subst h1; subst h2
        simp [strip_wildcard]
      · simp only [strip_wildcard]
        rw [if_neg h]
        constructor
        · intro hc; exact Option.noConfusion hc
        · intro hc
          injection hc with h1 h2
          injection h2 with h2 h3
          exact absurd ⟨h1, h2⟩ h

/-! ## Claims -/

/-- C2: `exec_allowed(p, argv)` returns ok if and only if the exec section
exists, its allowlist has an entry for `p` (the first such entry, the one
`find` consults), and either that entry's `allowed_subcommands` is empty or
`argv[0]` (the empty string when argv is empty) is in it, and no element of
argv exactly equals any of that entry's `blocked_flags`; otherwise a denial is
returned. -/
theorem exec_allowed_ok_iff (caps : CapabilitiesFile) (program : Str) (args : List Str) :
    exec_allowed caps program args = .ok () ↔
      ∃ ex entry, caps.exec = some ex ∧
        ex.allowlist.find? (fun e => decide (e.program = program)) = some entry ∧
        (entry.allowed_subcommands = [] ∨ args.head?.getD [] ∈ entry.allowed_subcommands) ∧
        ∀ a ∈ args, a ∉ entry.blocked_flags := by
  unfold exec_allowed
  cases hex : caps.exec with
  | none =>
    dsimp only
    constructor
    · intro hc; exact Except.noConfusion hc
    · rintro ⟨ex', entry', hex', -, -⟩; exact Option.noConfusion hex'
  | some ex =>
    dsimp only
    cases hf : ex.allowlist.find? (fun e => decide (e.program = program)) with
    | none =>
      dsimp only
      constructor
      · intro hc; exact Except.noConfusion hc
      · rintro ⟨ex', entry', hex', hf', -⟩
        injection hex' with hex'
        subst hex'
        rw [hf] at hf'
        exact Option.noConfusion hf'
    | some entry =>
      dsimp only
      rw [exec_entry_decision_ok_iff]
      constructor
      · intro h; exact ⟨ex, entry, rfl, hf, h⟩
      · rintro ⟨ex', entry', hex', hf', h⟩
        injection hex' with hex'
        subst hex'
        rw [hf] at hf'
        injection hf' with hf'
        subst hf'
        exact h

/-- C2 witness: a concrete allowlisted program with a permitted subcommand and
no blocked flag. -/
theorem exec_allowed_ok_iff_witness :
    exec_allowed { exec := some { allowlist := [⟨strL "cast", [strL "send", strL "call"], [strL "--interactive"]⟩], rate_limit := none } } (strL "cast") [strL "send", strL "--rpc-url"] = .ok () := by
  rw [exec_allowed_ok_iff]
  exact ⟨{ allowlist := [⟨strL "cast", [strL "send", strL "call"], [strL "--interactive"]⟩], rate_limit := none }, ⟨strL "cast", [strL "send", strL "call"], [strL "--interactive"]⟩, rfl, by decide, by decide, by decide⟩

/-- C3: `workspace_read_allowed` rejects any empty, absolute, `..`-containing
or NUL-containing path regardless of the configured prefixes; with no
workspace section it returns false; otherwise it returns true iff
`allowed_prefixes` is empty or some listed prefix is a string prefix of the
path. -/
theorem workspace_read_allowed_spec (caps : CapabilitiesFile) (path : Str) :
    (invalid_workspace_path path → workspace_read_allowed caps path = false)
  ∧ (caps.workspace = none → workspace_read_allowed caps path = false)
  ∧ (∀ w, caps.workspace = some w → ¬ invalid_workspace_path path →
      (workspace_read_allowed caps path = true ↔
        w.allowed_prefixes = [] ∨ ∃ p ∈ w.allowed_prefixes, p <+: path)) := by
  refine ⟨?_, ?_, ?_⟩
  · intro h; unfold workspace_read_allowed; rw [if_pos h]
  · intro hw
    unfold workspace_read_allowed
    by_cases hbad : invalid_workspace_path path
    · rw [if_pos hbad]
    · rw [if_neg hbad, hw]
  · intro w hw hbad
    unfold workspace_read_allowed
    rw [if_neg hbad, hw]
    dsimp only
    by_cases hemp : w.allowed_prefixes = []
    · simp [hemp]
    · rw [if_neg hemp]
      simp [List.any_eq_true, hemp]

/-- C3 witness: with prefixes `["docs/"]`, the traversal path `../etc` is
rejected, and `docs/readme.md` is allowed via the prefix. -/
theorem workspace_read_allowed_spec_witness :
    workspace_read_allowed { workspace := some { allowed_prefixes := [strL "docs/"] } } (strL "../etc") = false
  ∧ (workspace_read_allowed { workspace := some { allowed_prefixes := [strL "docs/"] } } (strL "docs/readme.md") = true
      ↔ ([strL "docs/"] : List Str) = [] ∨ ∃ p ∈ [strL "docs/"], p <+: strL "docs/readme.md") := by
  constructor
  · exact (workspace_read_allowed_spec _ _).1 (by decide)
  · exact (workspace_read_allowed_spec _ _).2.2 _ rfl (by decide)

/-- C4: against a wildcard pattern `*.S` a host matches iff it ends with `.S`
ASCII-case-insensitively and is not case-insensitively equal to `S` itself; a
non-wildcard pattern matches only by exact ASCII-case-insensitive equality. -/
theorem host_matches_pattern_spec :
    (∀ host suf : Str,
        host_matches_pattern host ('*' :: '.' :: suf) = true ↔
          (('.' :: lowerStr suf) <:+ lowerStr host ∧ lowerStr host ≠ lowerStr suf))
  ∧ (∀ host pattern : Str, (∀ suf : Str, pattern ≠ '*' :: '.' :: suf) →
      (host_matches_pattern host pattern = true ↔ lowerStr host = lowerStr pattern)) := by
  have hstar : asciiLower '*' = '*' := rfl
  have hdot : asciiLower '.' = '.' := rfl
  constructor
  · intro host suf
    unfold host_matches_pattern
    have hl : lowerStr ('*' :: '.' :: suf) = '*' :: '.' :: lowerStr suf := by
      simp [lowerStr, hstar, hdot]
    have hwild : strip_wildcard ('*' :: '.' :: suf) = some suf :=
      strip_wildcard_eq_some.2 rfl
    by_cases heq : lowerStr host = lowerStr ('*' :: '.' :: suf)
    · rw [if_pos heq]
      rw [hl] at heq
      constructor
      · intro _
        refine ⟨?_, ?_⟩
        · rw [heq]; exact ⟨['*'], rfl⟩
        · rw [heq]
          intro hcontra
          apply_fun List.length at hcontra
          simp [lowerStr] at hcontra
          omega
      · intro _; rfl
    · rw [if_neg heq, hwild]
      dsimp only
      by_cases heq2 : lowerStr host = lowerStr suf
      · simp [heq2]
      · simp [heq2]
  · intro host pattern hnw
    unfold host_matches_pattern
    have hwild : strip_wildcard pattern = none := by
      cases hsw : strip_wildcard pattern with
      | none => rfl
      | some suf => exact absurd (strip_wildcard_eq_some.1 hsw) (hnw suf)
    by_cases heq : lowerStr host = lowerStr pattern
    · rw [if_pos heq]; simp [heq]
    · rw [if_neg heq, hwild]
      dsimp only
      simp [heq]

/-- C4 witness: `API.example.com` matches `*.example.com`; for the literal
pattern `example.com` matching reduces to case-insensitive equality. -/
theorem host_matches_pattern_spec_witness :
    (host_matches_pattern (strL "API.example.com") ('*' :: '.' :: strL "example.com") = true ↔
      (('.' :: lowerStr (strL "example.com")) <:+ lowerStr (strL "API.example.com") ∧
        lowerStr (strL "API.example.com") ≠ lowerStr (strL "example.com")))
  ∧ (host_matches_pattern (strL "api.example.com") (strL "example.com") = true ↔
      lowerStr (strL "api.example.com") = lowerStr (strL "example.com")) := by
  constructor
  · exact host_matches_pattern_spec.1 _ _
  · refine host_matches_pattern_spec.2 _ _ ?_
    intro suf h
    have hh : (strL "example.com").head? = some '*' := by rw [h]; rfl
    simp [strL] at hh

/-- C10: `exec_allowed` consults only the first allowlist entry whose program
equals the requested program — the decision equals the subcommand/blocked-flag
check of that earliest entry, independently of any later entry for the same
program. -/
theorem exec_allowed_first_entry (caps : CapabilitiesFile) (program : Str)
    (args : List Str) (ex : ExecCapabilitySchema) (pre : List ExecAllowlistEntry)
    (entry : ExecAllowlistEntry) (post : List ExecAllowlistEntry)
    (hex : caps.exec = some ex)
    (hlist : ex.allowlist = pre ++ entry :: post)
    (hpre : ∀ e ∈ pre, e.program ≠ program)
    (hprog : entry.program = program) :
    exec_allowed caps program args = exec_entry_decision program args entry := by
  unfold exec_allowed
  rw [hex]
  dsimp only
  rw [hlist, List.find?_append]
  have h1 : pre.find? (fun e => decide (e.program = program)) = none :=
    List.find?_eq_none.2 (by intro e he; simpa using hpre e he)
  have h2 : (entry :: post).find? (fun e => decide (e.program = program)) = some entry :=
    List.find?_cons_of_pos _ (by simpa using hprog)
  rw [h1, h2]
  rfl

/-- C10 witness: with two `git` entries, the subcommand `push` — permitted
only by the later entry — is still denied, because only the first entry is
consulted. -/
theorem exec_allowed_first_entry_witness :
    exec_allowed { exec := some { allowlist := [⟨strL "git", [strL "status"], []⟩, ⟨strL "git", [strL "push"], []⟩], rate_limit := none } } (strL "git") [strL "push"] =
      exec_entry_decision (strL "git") [strL "push"] ⟨strL "git", [strL "status"], []⟩
  ∧ exec_entry_decision (strL "git") [strL "push"] ⟨strL "git", [strL "status"], []⟩ =
      .error (strL "subcommand \x27push\x27 not allowed for program \x27git\x27") := by
  constructor
  · exact exec_allowed_first_entry _ _ _ _ [] ⟨strL "git", [strL "status"], []⟩ [⟨strL "git", [strL "push"], []⟩] rfl rfl (by intro e he; cases he) rfl
  · rfl


/-! ## Store configuration, http gating, log buffer lemmas -/

theorem http_request_gate_fst (caps : CapabilitiesFile) (method url : Str) (count : Nat) :
    (http_request_gate caps true method url count).1 = (count + 1) % U32_MOD := by
  unfold http_request_gate
  simp only [Bool.not_true, Bool.false_eq_true, if_false]
  split <;> rfl

theorem http_request_gate_snd (caps : CapabilitiesFile) (method url : Str) (count : Nat) :
    (http_request_gate caps true method url count).2 =
      if (count + 1) % U32_MOD > http_limit caps then
        some (strL "http request rate limit exceeded")
      else none := by
  unfold http_request_gate
  simp only [Bool.not_true, Bool.false_eq_true, if_false]
  split <;> rfl

theorem http_gate_count_eq (caps : CapabilitiesFile) (method url : Str) :
    ∀ n, http_gate_count caps method url n = n % U32_MOD := by
  intro n
  induction n with
  | zero => simp [http_gate_count]
  | succ k ih =>
    unfold http_gate_count
    rw [ih, http_request_gate_fst]
    simp only [U32_MOD]
    omega

theorem push_log_some_pre {logs : List RuntimeLog} (level : Str) (message : List Nat)
    (now : Nat) {newLogs : List RuntimeLog}
    (hres : push_log logs level message now = some newLogs) : logs <+: newLogs := by
  unfold push_log at hres
  split at hres
  · injection hres with hres
    subst hres
    exact List.prefix_rfl
  · split at hres
    · split at hres
      · injection hres with hres
        subst hres
        exact List.prefix_append _ _
      · exact Option.noConfusion hres
    · injection hres with hres
      subst hres
      exact List.prefix_append _ _

theorem push_log_length_le {logs : List RuntimeLog} (level : Str) (message : List Nat)
    (now : Nat) (h : logs.length ≤ MAX_LOG_ENTRIES) {newLogs : List RuntimeLog}
    (hres : push_log logs level message now = some newLogs) :
    newLogs.length ≤ MAX_LOG_ENTRIES := by
  unfold push_log at hres
  split at hres
  · injection hres with hres
    subst hres
    exact h
  · next hlen =>
    push_neg at hlen
    split at hres
    · split at hres
      · injection hres with hres
        subst hres
        simp only [List.length_append, List.length_cons, List.length_nil]
        omega
      · exact Option.noConfusion hres
    · injection hres with hres
      subst hres
      simp only [List.length_append, List.length_cons, List.length_nil]
      omega

theorem push_log_message_le {logs : List RuntimeLog} (level : Str) (message : List Nat)
    (now : Nat)
    (h : ∀ e ∈ logs, e.message.length ≤ MAX_LOG_MESSAGE_BYTES + truncationMarker.length)
    {newLogs : List RuntimeLog}
    (hres : push_log logs level message now = some newLogs) :
    ∀ e ∈ newLogs,
      e.message.length ≤ MAX_LOG_MESSAGE_BYTES + truncationMarker.length := by
  unfold push_log at hres
  split at hres
  · injection hres with hres
    subst hres
    exact h
  · split at hres
    · split at hres
      · injection hres with hres
        subst hres
        intro e he
        rw [List.mem_append] at he
        rcases he with he | he
        · exact h e he
        · simp only [List.mem_singleton] at he
          subst he
          simp only [List.length_append, List.length_take]
          omega
      · exact Option.noConfusion hres
    · next hm =>
      push_neg at hm
      injection hres with hres
      subst hres
      intro e he
      rw [List.mem_append] at he
      rcases he with he | he
      · exact h e he
      · simp only [List.mem_singleton] at he
        subst he
        dsimp only
        omega

theorem push_fold_aux_len :
    ∀ (calls : List (Str × List Nat × Nat)) (acc : Option (List RuntimeLog)),
      (∀ l, acc = some l → l.length ≤ MAX_LOG_ENTRIES) →
      ∀ logs,
        calls.foldl (fun acc c => acc.bind fun logs => push_log logs c.1 c.2.1 c.2.2) acc
          = some logs →
        logs.length ≤ MAX_LOG_ENTRIES := by
  intro calls
  induction calls with
  | nil => intro acc hacc logs h; exact hacc logs h
  | cons c rest ih =>
    intro acc hacc logs h
    rw [List.foldl_cons] at h
    refine ih _ ?_ logs h
    intro l' hl'
    cases acc with
    | none => exact Option.noConfusion hl'
    | some l => exact push_log_length_le _ _ _ (hacc l rfl) hl'

theorem push_fold_aux_msg :
    ∀ (calls : List (Str × List Nat × Nat)) (acc : Option (List RuntimeLog)),
      (∀ l, acc = some l →
        ∀ e ∈ l, e.message.length ≤ MAX_LOG_MESSAGE_BYTES + truncationMarker.length) →
      ∀ logs,
        calls.foldl (fun acc c => acc.bind fun logs => push_log logs c.1 c.2.1 c.2.2) acc
          = some logs →
        ∀ e ∈ logs, e.message.length ≤ MAX_LOG_MESSAGE_BYTES + truncationMarker.length := by
  intro calls
  induction calls with
  | nil => intro acc hacc logs h; exact hacc logs h
  | cons c rest ih =>
    intro acc hacc logs h
    rw [List.foldl_cons] at h
    refine ih _ ?_ logs h
    intro l' hl'
    cases acc with
    | none => exact Option.noConfusion hl'
    | some l => exact push_log_message_le _ _ _ (hacc l rfl) hl'

/-- C7: each invocation's fresh store gets fuel equal to the invoked tool's
fuel limit, an epoch deadline of `max(1, timeout_ms / 10)` ticks, a memory
limiter bounded by that tool's `memory_bytes` (the bound is read from an
arbitrary element of the tool map, but discovery gives every tool of a
snapshot the same limits), instance/table/memory counts capped at 16, and
table growth capped at 10000 entries. -/
theorem configure_store_spec (d : RuntimeDefaults) (stems : List Str)
    (tools : List PreparedTool) (tool : PreparedTool) (chosen : Option PreparedTool)
    (htools : tools = discover_prepared d stems)
    (hmem : tool ∈ tools)
    (hsome : ∀ t, chosen = some t → t ∈ tools)
    (hnone : chosen = none → tools = []) :
    configure_store tool chosen =
      { fuel := tool.limits.fuel,
        epoch_deadline_ticks := max 1 (tool.limits.timeout_ms / 10),
        memory_limit := tool.limits.memory_bytes,
        max_instances := 16, max_tables := 16, max_memories := 16,
        table_growth_limit := 10000 } := by
  have hlimits : ∀ t ∈ tools, t.limits = prepared_limits d := by
    subst htools
    intro t ht
    simp only [discover_prepared, List.mem_map] at ht
    obtain ⟨s, -, rfl⟩ := ht
    rfl
  cases chosen with
  | none =>
    rw [hnone rfl] at hmem
    exact absurd hmem (List.not_mem_nil tool)
  | some t =>
    have ht : t ∈ tools := hsome t rfl
    have heq : t.limits = tool.limits := by rw [hlimits t ht, hlimits tool hmem]
    unfold configure_store store_memory_limit EPOCH_TICK_INTERVAL_MS
    simp [heq, Nat.max_comm]

/-- C7 witness: a one-tool snapshot discovered with the default limits. -/
theorem configure_store_spec_witness :
    configure_store ⟨strL "echo", prepared_limits ⟨10485760, 60000, 10000000, 4⟩⟩ (some ⟨strL "echo", prepared_limits ⟨10485760, 60000, 10000000, 4⟩⟩) =
      { fuel := 10000000, epoch_deadline_ticks := max 1 (60000 / 10),
        memory_limit := 10485760, max_instances := 16, max_tables := 16,
        max_memories := 16, table_growth_limit := 10000 } := by
  have h := configure_store_spec ⟨10485760, 60000, 10000000, 4⟩ [strL "echo"]
    (discover_prepared ⟨10485760, 60000, 10000000, 4⟩ [strL "echo"])
    ⟨strL "echo", prepared_limits ⟨10485760, 60000, 10000000, 4⟩⟩
    (some ⟨strL "echo", prepared_limits ⟨10485760, 60000, 10000000, 4⟩⟩)
    rfl (by decide)
    (by intro t ht; injection ht with ht; rw [← ht]; decide)
    (by intro hc; exact Option.noConfusion hc)
  simpa using h

/-- C8 (amended): within one invocation, with effective http limit L (the
section's positive `requests_per_minute`, else 50), every allowlisted
`http_request` call advances the wrapping u32 counter by one; with L below
2^32, the k-th such call passes the rate check for k at most L, and every
call after the L-th whose index is below 2^32 returns the canonical
rate-limit error — but the counter wraps modulo 2^32, so the 2^32-th call
(and any later call whose wrapped counter is at most L) passes the rate check
again. -/
theorem http_rate_limit_spec :
    (∀ (caps : CapabilitiesFile) (method url : Str) (n : Nat),
        http_gate_count caps method url n = n % U32_MOD)
  ∧ (∀ (caps : CapabilitiesFile) (method url : Str) (k : Nat), 1 ≤ k →
      (http_request_gate caps true method url (http_gate_count caps method url (k - 1))).2 =
        if k % U32_MOD > http_limit caps then
          some (strL "http request rate limit exceeded")
        else none)
  ∧ (∀ (caps : CapabilitiesFile) (method url : Str) (k : Nat),
      1 ≤ k → k ≤ http_limit caps → http_limit caps < U32_MOD →
      (http_request_gate caps true method url (http_gate_count caps method url (k - 1))).2 =
        none)
  ∧ (∀ (caps : CapabilitiesFile) (method url : Str) (k : Nat),
      http_limit caps < k → k < U32_MOD →
      (http_request_gate caps true method url (http_gate_count caps method url (k - 1))).2 =
        some (strL "http request rate limit exceeded"))
  ∧ (∀ (caps : CapabilitiesFile) http rate, caps.http = some http →
      http.rate_limit = some rate → 0 < rate.requests_per_minute →
      http_limit caps = rate.requests_per_minute)
  ∧ (∀ (caps : CapabilitiesFile) http rate, caps.http = some http →
      http.rate_limit = some rate → rate.requests_per_minute = 0 →
      http_limit caps = 50)
  ∧ (∀ (caps : CapabilitiesFile) http, caps.http = some http →
      http.rate_limit = none → http_limit caps = 50)
  ∧ (∀ caps : CapabilitiesFile, caps.http = none → http_limit caps = 50) := by
  refine ⟨http_gate_count_eq, ?_, ?_, ?_, ?_, ?_, ?_, ?_⟩
  · intro caps method url k hk
    rw [http_gate_count_eq, http_request_gate_snd]
    have hk1 : ((k - 1) % U32_MOD + 1) % U32_MOD = k % U32_MOD := by
      simp only [U32_MOD]
      omega
    rw [hk1]
  · intro caps method url k hk hkL hL
    rw [http_gate_count_eq, http_request_gate_snd]
    have hk1 : ((k - 1) % U32_MOD + 1) % U32_MOD = k := by
      simp only [U32_MOD] at hL ⊢
      omega
    rw [hk1, if_neg (by omega)]
  · intro caps method url k hkL hk
    rw [http_gate_count_eq, http_request_gate_snd]
    have hk1 : ((k - 1) % U32_MOD + 1) % U32_MOD = k := by
      simp only [U32_MOD] at hk ⊢
      omega
    rw [hk1, if_pos (by omega)]
  · intro caps http rate h1 h2 h3
    unfold http_limit
    rw [h1]
    dsimp only
    rw [h2]
    dsimp only
    rw [if_pos h3]
  · intro caps http rate h1 h2 h3
    unfold http_limit
    rw [h1]
    dsimp only
    rw [h2]
    dsimp only
    rw [if_neg (by omega)]
  · intro caps http h1 h2
    unfold http_limit
    rw [h1]
    dsimp only
    rw [h2]
  · intro caps h1
    unfold http_limit
    rw [h1]

/-- C8 witness: with an http section whose rate limit is 60, the 60th
allowlisted call passes the rate check and the 61st is rejected. -/
theorem http_rate_limit_spec_witness :
    http_limit ⟨some ⟨some ⟨60, 1000⟩⟩, none, none, none⟩ = 60
  ∧ (http_request_gate ⟨some ⟨some ⟨60, 1000⟩⟩, none, none, none⟩ true (strL "GET") (strL "https://api.example.com/v1") (http_gate_count ⟨some ⟨some ⟨60, 1000⟩⟩, none, none, none⟩ (strL "GET") (strL "https://api.example.com/v1") 59)).2 = none
  ∧ (http_request_gate ⟨some ⟨some ⟨60, 1000⟩⟩, none, none, none⟩ true (strL "GET") (strL "https://api.example.com/v1") (http_gate_count ⟨some ⟨some ⟨60, 1000⟩⟩, none, none, none⟩ (strL "GET") (strL "https://api.example.com/v1") 60)).2 = some (strL "http request rate limit exceeded") := by
  refine ⟨?_, ?_, ?_⟩
  · exact http_rate_limit_spec.2.2.2.2.1 _ ⟨some ⟨60, 1000⟩⟩ ⟨60, 1000⟩ rfl rfl (by decide)
  · exact http_rate_limit_spec.2.2.1 _ _ _ 60 (by omega) (by decide) (by decide)
  · exact http_rate_limit_spec.2.2.2.1 _ _ _ 61 (by decide) (by decide)

/-- C8 counterexample: with the default limit 50, the u32 counter wraps at
the 2^32-th allowlisted call — its count becomes 0, the rate check passes and
no error is returned although the call is far past the 50th, refuting "every
call after the L-th returns the canonical rate-limit error". -/
theorem http_rate_limit_cx :
    http_limit ⟨none, none, none, none⟩ = 50
  ∧ 50 < 4294967296
  ∧ (http_request_gate ⟨none, none, none, none⟩ true (strL "GET") (strL "https://a")
      (http_gate_count ⟨none, none, none, none⟩ (strL "GET") (strL "https://a") 4294967295)).2 =
      none := by
  refine ⟨rfl, by omega, ?_⟩
  rw [http_gate_count_eq, http_request_gate_snd]
  have h : (4294967295 % U32_MOD + 1) % U32_MOD = 0 := by
    simp only [U32_MOD]
  rw [h, if_neg (by decide)]

/-- C5 (amended): whenever a sequence of log calls completes without
panicking, the log buffer is append-only and never exceeds 1000 entries;
every stored message is at most 4096 + 15 = 4111 bytes.  Messages of at most
4096 bytes are stored verbatim; a longer message is truncated to its first
4096 bytes plus the 15-byte `... (truncated)` marker when byte 4096 is a
UTF-8 character boundary, and the byte slice panics (modelled as `none`, no
entry stored) when it is not. -/
theorem push_log_bounded :
    (∀ (logs : List RuntimeLog) (level : Str) (message : List Nat) (now : Nat)
        (newLogs : List RuntimeLog),
        push_log logs level message now = some newLogs → logs <+: newLogs)
  ∧ (∀ calls logs, push_log_fold calls = some logs → logs.length ≤ MAX_LOG_ENTRIES)
  ∧ (∀ calls logs, push_log_fold calls = some logs →
        ∀ e ∈ logs, e.message.length ≤ MAX_LOG_MESSAGE_BYTES + truncationMarker.length)
  ∧ (∀ (logs : List RuntimeLog) (level : Str) (message : List Nat) (now : Nat),
        logs.length < MAX_LOG_ENTRIES → MAX_LOG_MESSAGE_BYTES < message.length →
        utf8_boundary_at message MAX_LOG_MESSAGE_BYTES →
        push_log logs level message now =
          some (logs ++ [⟨level, message.take MAX_LOG_MESSAGE_BYTES ++ truncationMarker, now⟩]))
  ∧ (∀ (logs : List RuntimeLog) (level : Str) (message : List Nat) (now : Nat),
        logs.length < MAX_LOG_ENTRIES → MAX_LOG_MESSAGE_BYTES < message.length →
        ¬ utf8_boundary_at message MAX_LOG_MESSAGE_BYTES →
        push_log logs level message now = none)
  ∧ (∀ (logs : List RuntimeLog) (level : Str) (message : List Nat) (now : Nat),
        logs.length < MAX_LOG_ENTRIES → message.length ≤ MAX_LOG_MESSAGE_BYTES →
        push_log logs level message now = some (logs ++ [⟨level, message, now⟩])) := by
  refine ⟨?_, ?_, ?_, ?_, ?_, ?_⟩
  · intro logs level message now newLogs h
    exact push_log_some_pre _ _ _ h
  · intro calls logs h
    refine push_fold_aux_len calls (some []) ?_ logs h
    intro l hl
    injection hl with hl
    subst hl
    exact Nat.zero_le _
  · intro calls logs h
    refine push_fold_aux_msg calls (some []) ?_ logs h
    intro l hl
    injection hl with hl
    subst hl
    intro e he
    exact absurd he (List.not_mem_nil e)
  · intro logs level message now h1 h2 h3
    unfold push_log
    rw [if_neg (by omega), if_pos (by omega), if_pos h3]
  · intro logs level message now h1 h2 h3
    unfold push_log
    rw [if_neg (by omega), if_pos (by omega), if_neg h3]
  · intro logs level message now h1 h2
    unfold push_log
    rw [if_neg (by omega), if_neg (by omega)]

/-- C5 witness: one short log call is stored verbatim and obeys the 4111-byte
bound. -/
theorem push_log_bounded_witness :
    (⟨[], [42], 7⟩ : RuntimeLog).message.length ≤ MAX_LOG_MESSAGE_BYTES + truncationMarker.length
  ∧ push_log [] [] [42] 7 = some ([] ++ [⟨[], [42], 7⟩]) := by
  constructor
  · exact push_log_bounded.2.2.1 [([], [42], 7)] [⟨[], [42], 7⟩] (by decide) ⟨[], [42], 7⟩ (by decide)
  · exact push_log_bounded.2.2.2.2.2 [] [] [42] 7 (by decide) (by decide)

/-- C5 counterexample: a 4097-byte all-ASCII message (byte 4096 is a
character boundary, so no panic) is stored with 4096 bytes of content plus
the 15-byte marker, 4111 bytes in total — the stored entry exceeds the
claimed 4096-byte bound. -/
theorem push_log_stored_over_4096 :
    ¬ ∀ logs, push_log [] [] (List.replicate 4097 0) 0 = some logs →
        ∀ e ∈ logs, e.message.length ≤ MAX_LOG_MESSAGE_BYTES := by
  intro hall
  have hb : utf8_boundary_at (List.replicate 4097 (0 : Nat)) MAX_LOG_MESSAGE_BYTES := by
    right; right
    constructor
    · simp only [List.length_replicate, MAX_LOG_MESSAGE_BYTES]
      omega
    · left
      rw [List.getD_eq_getElem?_getD,
        List.getElem?_replicate_of_lt (by simp only [MAX_LOG_MESSAGE_BYTES]; omega)]
      simp only [Option.getD_some]
      omega
  have heq : push_log [] [] (List.replicate 4097 0) 0 =
      some ([] ++ [⟨[], (List.replicate 4097 (0 : Nat)).take MAX_LOG_MESSAGE_BYTES ++ truncationMarker, 0⟩]) := by
    unfold push_log
    rw [if_neg (by simp only [List.length_nil, MAX_LOG_ENTRIES]; omega),
      if_pos (by simp only [List.length_replicate, MAX_LOG_MESSAGE_BYTES]; omega),
      if_pos hb]
  have hmem : (⟨[], (List.replicate 4097 (0 : Nat)).take MAX_LOG_MESSAGE_BYTES ++ truncationMarker, 0⟩ : RuntimeLog)
      ∈ [] ++ [(⟨[], (List.replicate 4097 (0 : Nat)).take MAX_LOG_MESSAGE_BYTES ++ truncationMarker, 0⟩ : RuntimeLog)] := by
    rw [List.nil_append]
    exact List.mem_singleton.2 rfl
  have hle := hall _ heq _ hmem
  have hmark : truncationMarker.length = 15 := by decide
  simp only [List.length_append, List.length_take, List.length_replicate, hmark,
    MAX_LOG_MESSAGE_BYTES] at hle
  omega

/-! ## Nested invocation depth and placeholder lemmas -/

theorem firstOcc_isPre {pat l : Str} {n : Nat} (h : firstOcc pat l = some n) :
    pat <+: l.drop n := by
  induction l generalizing n with
  | nil =>
    unfold firstOcc at h
    split at h
    · next hp =>
      injection h with h
      subst h
      simpa using hp
    · exact Option.noConfusion h
  | cons c rest ih =>
    unfold firstOcc at h
    split at h
    · next hp =>
      injection h with h
      subst h
      simpa using hp
    · cases hr : firstOcc pat rest with
      | none =>
        rw [hr] at h
        exact Option.noConfusion h
      | some m =>
        rw [hr] at h
        injection h with h
        subst h
        rw [List.drop_succ_cons]
        exact ih hr

/-- C6 (amended): in the self-invoking chain scenario, the `tool_invoke` made
by the guest running at depth `max_invoke_depth` fails with the canonical
`max tool invoke depth exceeded` error; every enclosing invocation returns
normally (no guest error, no runtime error), and each reports
`tool_invoke_count = 1`: the counter counts every attempt that passed alias
resolution and the rate check — including the attempt that failed the depth
check, which is counted even though no invocation resulted. -/
theorem chain_invoke_depth (maxd : Nat) :
    ∀ fuel d, d ≤ maxd → maxd - d < fuel →
      chainInvokeInternal fuel d maxd =
        .ok { output := some (strL "ERR:" ++ depth_err_msg (maxd + 1) maxd),
              error := none, depth := d, tool_invoke_count := 1 } := by
  intro fuel
  induction fuel with
  | zero => intro d hd hf; omega
  | succ f ih =>
    intro d hd hf
    have halias : resolve_tool_alias chainCaps CHAIN_ALIAS = some CHAIN_TOOL := rfl
    have hlimit : ¬ (0 + 1 > tool_invoke_limit chainCaps) := by decide
    have hmodel : tool_invoke_model chainCaps (fun name => decide (name = CHAIN_TOOL))
        (fun _ next => chainInvokeInternal f next maxd)
        (fun t _ => .error (strL "host invoke unavailable for " ++ t))
        0 d maxd CHAIN_ALIAS (strL "\x7b\x7d")
        = (1, if d + 1 > maxd then .error (depth_err_msg (d + 1) maxd)
              else .ok (strL "ERR:" ++ depth_err_msg (maxd + 1) maxd)) := by
      unfold tool_invoke_model
      rw [halias]
      dsimp only
      rw [if_neg hlimit]
      by_cases hd2 : d + 1 > maxd
      · rw [if_pos hd2, if_pos hd2]
      · rw [if_neg hd2, if_neg hd2]
        rw [if_pos (show decide (CHAIN_TOOL = CHAIN_TOOL) = true by decide)]
        rw [ih (d + 1) (by omega) (by omega)]
        rfl
    unfold chainInvokeInternal
    rw [if_neg (by omega : ¬ d > maxd)]
    dsimp only
    rw [hmodel]
    by_cases hd2 : d + 1 > maxd
    · have hde : d = maxd := by omega
      subst hde
      rw [if_pos hd2]
      rfl
    · rw [if_neg hd2]
      rfl

/-- C6 witness: the whole chain from depth 0 with the default
`max_invoke_depth = 4` returns normally, reporting the depth error produced at
the bottom and a tool_invoke count of 1 at the root. -/
theorem chain_invoke_depth_witness :
    chainInvokeInternal 6 0 4 =
      .ok { output := some (strL "ERR:" ++ depth_err_msg 5 4),
            error := none, depth := 0, tool_invoke_count := 1 } :=
  chain_invoke_depth 4 6 0 (by omega) (by omega)

/-- C6 counterexample: the invocation running at depth 4 = max_invoke_depth
returns normally with `tool_invoke_count = 1` even though its single
`tool_invoke` attempt failed the depth check and completed no invocation —
the counter is incremented before the depth check, so a depth-failed attempt
is counted, contradicting the claim that it is not. -/
theorem chain_invoke_depth_cx :
    chainInvokeInternal 1 4 4 =
      .ok { output := some (strL "ERR:max tool invoke depth exceeded: 5 > 4"),
            error := none, depth := 4, tool_invoke_count := 1 }
  ∧ (1 : Nat) ≠ 0 := ⟨rfl, by omega⟩

/-- C9: on an input with no complete placeholder — including inputs with an
unterminated `SECRET` opener — `resolve_secret_placeholders_with` returns the
input unchanged and leaves the resolved-secrets list unmodified, for every
resolver; substitution is therefore idempotent on such inputs. -/
theorem resolve_placeholders_id (input : Str) (secrets : List Str)
    (f : Str → Except Str Str) (h : ¬ HasPlaceholder input) :
    resolve_secret_placeholders_with input secrets f = .ok (input, secrets) := by
  unfold resolve_secret_placeholders_with
  unfold resolveAux
  rw [List.drop_zero]
  cases ho : firstOcc SECRET_OPEN input with
  | none => rfl
  | some s =>
    have hopen : SECRET_OPEN <+: input.drop s := firstOcc_isPre ho
    have hslt : s < input.length := by
      by_contra hge
      push_neg at hge
      rw [List.drop_eq_nil_iff.2 hge, List.prefix_nil] at hopen
      exact absurd hopen (by decide)
    simp only [Nat.zero_add]
    cases hc : firstOcc SECRET_CLOSE (input.drop (s + SECRET_OPEN.length)) with
    | none => rfl
    | some e =>
      exfalso
      apply h
      have hclose : SECRET_CLOSE <+: (input.drop (s + SECRET_OPEN.length)).drop e :=
        firstOcc_isPre hc
      rw [List.drop_drop] at hclose
      have helt : e < input.length := by
        by_contra hge
        push_neg at hge
        have : input.length ≤ s + SECRET_OPEN.length + e := by omega
        rw [List.drop_eq_nil_iff.2 this, List.prefix_nil] at hclose
        exact absurd hclose (by decide)
      exact ⟨s, hslt, hopen, e, helt, hclose⟩

/-- C9 witness: an input with an unterminated opener passes through unchanged
with the secrets list untouched. -/
theorem resolve_placeholders_id_witness :
    resolve_secret_placeholders_with (strL "echo \x7b\x7bSECRET:API") [strL "old"]
        (fun _ => .error (strL "nope")) =
      .ok (strL "echo \x7b\x7bSECRET:API", [strL "old"]) :=
  resolve_placeholders_id _ _ _ (by decide)

/-! ## Redaction lemmas

`replaceAll` produces the pieces of its input between matches, joined by the
replacement token; a secret with no character of the token cannot straddle a
token, so it can only survive inside a piece — and the pieces contain no match
of the pattern and are contiguous pieces of the input. -/

theorem infOfPre {x y : Str} (h : x <+: y) : x <:+: y := by
  obtain ⟨t, ht⟩ := h
  exact ⟨[], t, by simpa using ht⟩

theorem infOfSuf {x y : Str} (h : x <:+ y) : x <:+: y := by
  obtain ⟨t, ht⟩ := h
  exact ⟨t, [], by simpa using ht⟩

theorem infix_split {x u v : Str} (h : x <:+: u ++ v) :
    x <:+: u ∨ x <:+: v ∨
      ∃ x₁ x₂, x = x₁ ++ x₂ ∧ x₁ ≠ [] ∧ x₂ ≠ [] ∧ x₁ <:+ u ∧ x₂ <+: v := by
  obtain ⟨s, t, hst⟩ := h
  rw [List.append_assoc] at hst
  rcases List.append_eq_append_iff.1 hst with ⟨w, hu, hxt⟩ | ⟨w, hs, hv⟩
  · rcases List.append_eq_append_iff.1 hxt with ⟨w2, hw, ht2⟩ | ⟨w2, hx, hv2⟩
    · left
      exact ⟨s, w2, by rw [hu, hw, List.append_assoc]⟩
    · rcases eq_or_ne w [] with hwnil | hwne
      · subst hwnil
        simp only [List.nil_append] at hx
        right; left
        exact ⟨[], t, by rw [hv2, hx, List.nil_append]⟩
      · rcases eq_or_ne w2 [] with hw2nil | hw2ne
        · subst hw2nil
          rw [List.append_nil] at hx
          left
          subst hx
          exact infOfSuf ⟨s, hu.symm⟩
        · right; right
          exact ⟨w, w2, hx, hwne, hw2ne, ⟨s, hu.symm⟩, ⟨t, hv2.symm⟩⟩
  · right; left
    exact ⟨w, t, by rw [hv, List.append_assoc]⟩

theorem pre_append_has_sep_char {x sep w : Str} (hx : x ≠ []) (hsep : sep ≠ [])
    (h : x <+: sep ++ w) : ∃ c ∈ x, c ∈ sep := by
  rcases x with _ | ⟨b, x'⟩
  · exact absurd rfl hx
  · rcases sep with _ | ⟨s0, sep'⟩
    · exact absurd rfl hsep
    · rw [List.cons_append, List.cons_prefix_cons] at h
      exact ⟨b, List.mem_cons_self b x', h.1 ▸ List.mem_cons_self s0 sep'⟩

theorem joinWith_no_cross {sep x : Str} (hsep : sep ≠ []) (hx : x ≠ [])
    (hdisj : ∀ c ∈ x, c ∉ sep) :
    ∀ pieces : List Str, x <:+: joinWith sep pieces → ∃ q ∈ pieces, x <:+: q := by
  intro pieces
  induction pieces with
  | nil =>
    intro h
    unfold joinWith at h
    have := h.length_le
    simp only [List.length_nil, Nat.le_zero, List.length_eq_zero] at this
    exact absurd this hx
  | cons p rest ih =>
    cases rest with
    | nil =>
      intro h
      exact ⟨p, List.mem_cons_self p [], by simpa [joinWith] using h⟩
    | cons q qs =>
      intro h
      have hshape : joinWith sep (p :: q :: qs) = p ++ (sep ++ joinWith sep (q :: qs)) := by
        rw [show joinWith sep (p :: q :: qs) = p ++ sep ++ joinWith sep (q :: qs) from rfl,
          List.append_assoc]
      rw [hshape] at h
      rcases infix_split h with h1 | h1 | ⟨x₁, x₂, hx12, hne1, hne2, hsuf, hpre⟩
      · exact ⟨p, List.mem_cons_self p _, h1⟩
      · rcases infix_split h1 with h2 | h2 | ⟨x₁, x₂, hx12, hne1, hne2, hsuf, hpre⟩
        · obtain ⟨c, hc⟩ := List.exists_mem_of_ne_nil x hx
          exact absurd (h2.subset hc) (hdisj c hc)
        · obtain ⟨r, hr, hxr⟩ := ih h2
          exact ⟨r, List.mem_cons_of_mem p hr, hxr⟩
        · obtain ⟨c, hc⟩ := List.exists_mem_of_ne_nil x₁ hne1
          have hcx : c ∈ x := by rw [hx12]; exact List.mem_append_left _ hc
          exact absurd (hsuf.subset hc) (hdisj c hcx)
      · obtain ⟨c, hcx2, hcsep⟩ := pre_append_has_sep_char hne2 hsep hpre
        have hcx : c ∈ x := by rw [hx12]; exact List.mem_append_right _ hcx2
        exact absurd hcsep (hdisj c hcx)

theorem replaceAll_pieces (pat repl : Str) (hpat : pat ≠ []) :
    ∀ (n : Nat) (s : Str), s.length ≤ n →
      ∃ p ps, replaceAllAux pat repl n s = joinWith repl (p :: ps) ∧ p <+: s ∧
        ∀ q ∈ p :: ps, q <:+: s ∧ ¬ pat <:+: q := by
  intro n
  induction n with
  | zero =>
    intro s hs
    have hnil : s = [] := List.length_eq_zero.1 (Nat.le_zero.1 hs)
    subst hnil
    refine ⟨[], [], rfl, ⟨[], rfl⟩, ?_⟩
    intro q hq
    simp only [List.mem_singleton] at hq
    subst hq
    constructor
    · exact ⟨[], [], rfl⟩
    · intro hcontra
      have := hcontra.length_le
      simp only [List.length_nil, Nat.le_zero, List.length_eq_zero] at this
      exact absurd this hpat
  | succ n ih =>
    intro s hs
    by_cases hm : pat <+: s
    · have hspos : pat.length ≤ s.length := hm.length_le
      have hpatpos : 0 < pat.length := List.length_pos.2 hpat
      obtain ⟨p', ps', heq, hpre, hcond⟩ :=
        ih (s.drop pat.length) (by simp only [List.length_drop]; omega)
      refine ⟨[], p' :: ps', ?_, ⟨s, rfl⟩, ?_⟩
      · simp only [replaceAllAux]
        rw [if_pos ⟨hpat, hm⟩, heq]
        rfl
      · intro q hq
        rcases List.mem_cons.1 hq with hq | hq
        · subst hq
          constructor
          · exact ⟨[], s, rfl⟩
          · intro hcontra
            have := hcontra.length_le
            simp only [List.length_nil, Nat.le_zero, List.length_eq_zero] at this
            exact absurd this hpat
        · obtain ⟨hq1, hq2⟩ := hcond q hq
          exact ⟨hq1.trans (infOfSuf (List.drop_suffix _ _)), hq2⟩
    · rcases s with _ | ⟨c, rest⟩
      · refine ⟨[], [], ?_, ⟨[], rfl⟩, ?_⟩
        · simp only [replaceAllAux]
          rw [if_neg (by intro hAnd; exact hm hAnd.2)]
          rfl
        · intro q hq
          simp only [List.mem_singleton] at hq
          subst hq
          constructor
          · exact ⟨[], [], rfl⟩
          · intro hcontra
            have := hcontra.length_le
            simp only [List.length_nil, Nat.le_zero, List.length_eq_zero] at this
            exact absurd this hpat
      · obtain ⟨p', ps', heq, hpre, hcond⟩ :=
          ih rest (by simp only [List.length_cons] at hs; omega)
        refine ⟨c :: p', ps', ?_, List.cons_prefix_cons.2 ⟨rfl, hpre⟩, ?_⟩
        · simp only [replaceAllAux]
          rw [if_neg (by intro hAnd; exact hm hAnd.2)]
          rw [heq]
          cases ps' with
          | nil => rfl
          | cons r rs => rfl
        · intro q hq
          rcases List.mem_cons.1 hq with hq | hq
          · subst hq
            constructor
            · exact infOfPre (List.cons_prefix_cons.2 ⟨rfl, hpre⟩)
            · intro hcontra
              rcases List.infix_cons_iff.1 hcontra with hpc | hpc
              · exact hm (hpc.trans (List.cons_prefix_cons.2 ⟨rfl, hpre⟩))
              · exact (hcond p' (List.mem_cons_self p' ps')).2 hpc
          · obtain ⟨hq1, hq2⟩ := hcond q (List.mem_cons_of_mem p' hq)
            exact ⟨List.infix_cons hq1, hq2⟩

theorem not_infix_replaceAll_self {s repl : Str} (t : Str) (hs : s ≠ [])
    (hrepl : repl ≠ []) (hdisj : ∀ c ∈ s, c ∉ repl) :
    ¬ s <:+: replaceAll s repl t := by
  intro hinf
  unfold replaceAll at hinf
  obtain ⟨p, ps, heq, -, hcond⟩ := replaceAll_pieces s repl hs t.length t le_rfl
  rw [heq] at hinf
  obtain ⟨q, hq, hxq⟩ := joinWith_no_cross hrepl hs hdisj _ hinf
  exact (hcond q hq).2 hxq

theorem not_infix_replaceAll_preserve {s pat repl : Str} (t : Str) (hpat : pat ≠ [])
    (hs : s ≠ []) (hrepl : repl ≠ []) (hdisj : ∀ c ∈ s, c ∉ repl)
    (ht : ¬ s <:+: t) : ¬ s <:+: replaceAll pat repl t := by
  intro hinf
  unfold replaceAll at hinf
  obtain ⟨p, ps, heq, -, hcond⟩ := replaceAll_pieces pat repl hpat t.length t le_rfl
  rw [heq] at hinf
  obtain ⟨q, hq, hxq⟩ := joinWith_no_cross hrepl hs hdisj _ hinf
  exact ht (hxq.trans (hcond q hq).1)

theorem sanitize_cons (out p : Str) (rest : List Str) :
    sanitize_output out (p :: rest) =
      sanitize_output (if p ≠ [] then replaceAll p REDACTED_TOKEN out else out) rest := rfl

theorem sanitize_aux (s : Str) (hs : s ≠ []) (hdisj : ∀ c ∈ s, c ∉ REDACTED_TOKEN) :
    ∀ (secrets : List Str) (out : Str), (s ∈ secrets ∨ ¬ s <:+: out) →
      ¬ s <:+: sanitize_output out secrets := by
  have hrepl : REDACTED_TOKEN ≠ [] := by decide
  intro secrets
  induction secrets with
  | nil =>
    intro out h
    rcases h with h | h
    · exact absurd h (List.not_mem_nil s)
    · exact h
  | cons p rest ih =>
    intro out h
    rw [sanitize_cons]
    by_cases hmem : s ∈ rest
    · exact ih _ (Or.inl hmem)
    · refine ih _ (Or.inr ?_)
      rcases h with h | h
      · have hsp : s = p := by
          rcases List.mem_cons.1 h with h' | h'
          · exact h'
          · exact absurd h' hmem
        subst hsp
        rw [if_pos hs]
        exact not_infix_replaceAll_self out hs hrepl hdisj
      · by_cases hp : p ≠ []
        · rw [if_pos hp]
          exact not_infix_replaceAll_preserve out hp hs hrepl hdisj h
        · rw [if_neg hp]
          exact h

/-- C1 (amended): `sanitize_output` replaces, for each non-empty resolved
secret in list order, every occurrence by the `[REDACTED]` token, and empty
secrets are skipped exactly (removing them from the list changes nothing, so
they never erase legitimate output).  Every non-empty resolved plaintext that
shares no character with the literal token `[REDACTED]` appears zero times in
the sanitized output; a plaintext overlapping the token's characters can
survive, because the spliced-in token itself can recreate an occurrence. -/
theorem sanitize_output_redacts :
    (∀ (output : Str) (secrets : List Str) (s : Str),
        s ∈ secrets → s ≠ [] → (∀ c ∈ s, c ∉ REDACTED_TOKEN) →
        ¬ s <:+: sanitize_output output secrets)
  ∧ (∀ (output : Str) (secrets : List Str),
        sanitize_output output secrets =
          sanitize_output output (secrets.filter fun t => !t.isEmpty)) := by
  constructor
  · intro output secrets s hmem hs hdisj
    exact sanitize_aux s hs hdisj secrets output (Or.inl hmem)
  · intro output secrets
    induction secrets generalizing output with
    | nil => rfl
    | cons p rest ih =>
      by_cases hp : p = []
      · subst hp
        rw [sanitize_cons]
        rw [if_neg (by simp)]
        rw [show (([] : Str) :: rest).filter (fun t => !t.isEmpty) =
              rest.filter (fun t => !t.isEmpty) from by simp]
        exact ih output
      · rw [sanitize_cons, if_pos hp]
        rw [show (p :: rest).filter (fun t => !t.isEmpty) =
              p :: rest.filter (fun t => !t.isEmpty) from by
            simp [List.filter_cons, List.isEmpty_iff, hp]]
        rw [sanitize_cons, if_pos hp]
        exact ih _

/-- C1 witness: the token-disjoint secret `xyz` is fully redacted. -/
theorem sanitize_output_redacts_witness :
    ¬ (strL "xyz") <:+: sanitize_output (strL "a xyz b xyz") [strL "xyz"] :=
  sanitize_output_redacts.1 _ _ _ (by decide) (by decide) (by decide)

/-- C1 counterexample: with resolved secret `RED` and subprocess output `RED`,
the sanitized output is the token `[REDACTED]`, which still contains the
plaintext `RED` — the claim that every non-empty plaintext appears zero times
is false. -/
theorem sanitize_output_cx :
    (strL "RED") ≠ [] ∧ (strL "RED") ∈ [strL "RED"] ∧
      (strL "RED") <:+: sanitize_output (strL "RED") [strL "RED"] := by
  refine ⟨by decide, by decide, by decide⟩

end Lemon
